import Mathlib

/-!
Shallow embedding of the go-nunc changepoint-detection package (package
`nunc`: the sliding window, the NUNC cost processor, the threshold
policies and the detector shell).  Go `float64` values are idealised as
real numbers; Go `int` parameters are embedded as `Int`, Go `uint64`
counters as `Nat` (with the explicit `% 2 ^ 64` wrap written out where
the source performs wrapping subtraction).  Fallible constructors return
`Except String`.  Mutation is embedded as explicit state passing.
-/

open scoped Classical

namespace GoNunc

/-! ### window.go : the fixed-capacity sliding window `Window[T]` -/

/-- `Window[T]`: a fixed size FIFO buffer.  `data` is the backing slice
(allocated at full capacity by the constructor), `count` the all-time
push counter (`uint64` in the source, idealised as `Nat`; no run
considered here reaches `2 ^ 64` pushes). -/
structure Window (α : Type) where
  capacity : ℕ
  data : List α
  count : ℕ

/-- `NewWindow`: fails when the requested capacity is `<= 0`, otherwise
allocates `make([]T, capacity)`, i.e. `capacity` copies of the zero
value of `T`. -/
def NewWindow (α : Type) [Inhabited α] (capacity : ℤ) : Except String (Window α) :=
  if capacity ≤ 0 then .error "window capacity must be greater than 0"
  else .ok ⟨capacity.toNat, List.replicate capacity.toNat default, 0⟩

/-- `marker`: index of the slot holding the oldest element. -/
def Window.marker {α : Type} (w : Window α) : ℕ :=
  w.count % w.capacity

/-- private `push`: overwrite the oldest slot, bump the counter. -/
def Window.push {α : Type} (w : Window α) (value : α) : Window α :=
  { w with data := w.data.set w.marker value, count := w.count + 1 }

/-- `Len`: current occupancy. -/
def Window.Len {α : Type} (w : Window α) : ℕ :=
  if w.count ≥ w.capacity then w.capacity else w.marker

/-- `Cap`: the window capacity (`cap(w.data)`). -/
def Window.Cap {α : Type} (w : Window α) : ℕ :=
  w.capacity

/-- `Count`: the all-time push counter. -/
def Window.Count {α : Type} (w : Window α) : ℕ :=
  w.count

/-- `Full`: `int(w.Len()) == cap(w.data)`. -/
def Window.Full {α : Type} (w : Window α) : Bool :=
  w.Len == w.capacity

/-- private `get`: contents oldest-first; `none` when the backing slice
is nil or when `onlyFull` is set and the window is not yet full. -/
def Window.get {α : Type} (w : Window α) (onlyFull : Bool) : Option (List α) :=
  if w.data.isEmpty || (!w.Full && onlyFull) then none
  else some ((w.data.drop w.marker).take (w.Len - w.marker) ++ w.data.take w.marker)

/-- `Push`: insert a value, returning the all-time count. -/
def Window.Push {α : Type} (w : Window α) (value : α) : Window α × ℕ :=
  ((w.push value), (w.push value).count)

/-- `PushGet`: push, then return the count and the window contents. -/
def Window.PushGet {α : Type} (w : Window α) (value : α) : Window α × ℕ × Option (List α) :=
  ((w.push value), (w.push value).count, (w.push value).get false)

/-- `PushGetFull`: push, then return the count and the contents, the
latter only when the window is full (`nil` otherwise). -/
def Window.PushGetFull {α : Type} (w : Window α) (value : α) : Window α × ℕ × Option (List α) :=
  ((w.push value), (w.push value).count, (w.push value).get true)

/-- `Get`: contents oldest-first. -/
def Window.Get {α : Type} (w : Window α) : Option (List α) :=
  w.get false

/-- `GetFull`: contents oldest-first, `nil` when not yet full. -/
def Window.GetFull {α : Type} (w : Window α) : Option (List α) :=
  w.get true

/-- Sequential pushes (repeated calls of the source `Push`). -/
def Window.pushAll {α : Type} (w : Window α) (xs : List α) : Window α :=
  xs.foldl Window.push w

/-! ### threshold.go : the threshold policies -/

/-- The two implementations of the `Threshold` interface
(`ThresholdStatic` and `ThresholdEstimate`); both hold one scalar. -/
inductive Threshold where
  | static (value : ℝ)
  | estimate (value : ℝ)

/-- `Value()`: the stored scalar. -/
def Threshold.Value : Threshold → ℝ
  | .static v => v
  | .estimate v => v

/-- `Changepoint(cost)`: both implementations return `cost > value`
(with a nil error). -/
def Threshold.Changepoint (t : Threshold) (cost : ℝ) : Prop :=
  cost > t.Value

/-- `NewThresholdStatic`. -/
def NewThresholdStatic (value : ℝ) : Threshold :=
  .static value

/-- `NewThresholdEstimate`: validates `probability ∈ (0, 1]` and
`windowSize > 0`, then stores the closed-form estimate.  Note the guard
performs no check on `quantiles`. -/
noncomputable def NewThresholdEstimate (probability : ℝ) (datapoints windowSize quantiles : ℤ) :
    Except String Threshold :=
  if probability ≤ 0 ∨ 1 < probability then
    .error "probability must be greater than 0 and less than or equal to 1"
  else if windowSize ≤ 0 then
    .error "window size must be greater than 0"
  else if datapoints + 1 = windowSize then
    .ok (.estimate (1 + 2 * Real.sqrt (2 * Real.log
      (((windowSize : ℝ) * ((datapoints : ℝ) - (windowSize : ℝ) + 1)) / probability))))
  else
    .ok (.estimate (max
      (1 - 8 * (1 / (quantiles : ℝ)) * Real.log
        (probability / ((windowSize : ℝ) * ((datapoints : ℝ) - (windowSize : ℝ) + 1))))
      (1 + 2 * Real.sqrt (2 * Real.log
        (((windowSize : ℝ) * ((datapoints : ℝ) - (windowSize : ℝ) + 1)) / probability)))))

/-- The threshold estimate exactly as the specification words it: with
`M = W * (D - W + 1)`, the value is `1 + 2*sqrt(2*ln(M/p))` when
`D + 1 == W` and `max(1 - (8/K)*ln(p/M), 1 + 2*sqrt(2*ln(M/p)))`
otherwise.  Kept as a separate definition so that the constructor can be
compared against it. -/
noncomputable def thresholdEstimateSpec (p : ℝ) (D W K : ℤ) : ℝ :=
  let M : ℝ := (W : ℝ) * ((D : ℝ) - (W : ℝ) + 1)
  if D + 1 = W then 1 + 2 * Real.sqrt (2 * Real.log (M / p))
  else max (1 - (8 / (K : ℝ)) * Real.log (p / M))
    (1 + 2 * Real.sqrt (2 * Real.log (M / p)))

/-! ### bisect.go : insertion-point search -/

/-- First index at which the predicate holds, or the list length when it
never does.  `sort.Search` (binary search over a monotone predicate)
returns exactly this index; the `index == -1` branch of the source
`bisect` is dead code because `sort.Search` never returns `-1`. -/
noncomputable def searchIdx (p : ℝ → Prop) : List ℝ → ℕ
  | [] => 0
  | x :: xs => if p x then 0 else searchIdx p xs + 1

/-- `bisect(bisectLeft, data, value)`: insertion point found with the
`data[index] >= value` predicate. -/
noncomputable def bisectLeft (data : List ℝ) (value : ℝ) : ℕ :=
  searchIdx (fun x => x ≥ value) data

/-- `bisect(bisectRight, data, value)`: insertion point found with the
`data[index] > value` predicate. -/
noncomputable def bisectRight (data : List ℝ) (value : ℝ) : ℕ :=
  searchIdx (fun x => x > value) data

/-! ### nunc.go : the NUNC cost processor -/

/-- `Cost`: the strongest candidate changepoint of one window
evaluation: an absolute datapoint index (`uint64`) and a magnitude. -/
structure Cost where
  dataIndex : ℕ
  value : ℝ

/-- `Value()` accessor. -/
def Cost.Value (c : Cost) : ℝ :=
  c.value

/-- `Index()` accessor. -/
def Cost.Index (c : Cost) : ℕ :=
  c.dataIndex

/-- `NuncProcessor`: a window of float64 observations. -/
structure NuncProcessor where
  window : Window ℝ

/-- `New`: build a processor over a fresh window. -/
def New (windowSize : ℤ) : Except String NuncProcessor :=
  match NewWindow ℝ windowSize with
  | .error e => .error e
  | .ok w => .ok ⟨w⟩

/-- `quantile(data, pct)`: linear interpolation between the floor and
ceiling ranks of `(len(data)-1) * pct` in `data` (Go indexes with
`int(math.Floor(index))` and `int(math.Ceil(index))`; for the
non-panicking runs considered here the index is within bounds, so the
out-of-range default `0` is never consulted). -/
noncomputable def quantile (data : List ℝ) (pct : ℝ) : ℝ :=
  let index : ℝ := ((data.length - 1 : ℕ) : ℝ) * pct
  let lower := data.getD (⌊index⌋).toNat 0
  let upper := data.getD (⌈index⌉).toNat 0
  if lower = upper then lower
  else lower + ((index - ((⌊index⌋ : ℤ) : ℝ)) * (upper - lower))

/-- `quantiles(data, quantileCount)`: the `K` quantile values at the
NUNC probe probabilities
`p_i = 1 / (1 + (2N-2) * exp(-(ln(2N-1)/K) * (2i-1)))`. -/
noncomputable def quantiles (data : List ℝ) (quantileCount : ℤ) : List ℝ :=
  let c := Real.log ((2 * data.length - 1 : ℕ) : ℝ)
  (List.range quantileCount.toNat).map (fun (i : ℕ) =>
    let pct := 1 / (1 + (2 * ((data.length : ℝ) - 1)) *
      Real.exp ((-c / (quantileCount : ℝ)) * (2 * (i : ℝ) - 1)))
    quantile data pct)

/-- `ecdf(data, quantile)`: the empirical CDF estimate
`(left + (right-left)/2) / len(data)`.  `left` and `right` are Go
`int`s, so `(right-left)/2` is an integer division, which the embedding
writes as a `Nat` division before the cast to `float64`. -/
noncomputable def ecdf (data : List ℝ) (quantile : ℝ) : ℝ :=
  let left := bisectLeft data quantile
  let right := bisectRight data quantile
  ((left : ℝ) + (((right - left) / 2 : ℕ) : ℝ)) / (data.length : ℝ)

/-- The mid-rank empirical CDF exactly as the specification words it:
`(left_rank + (right_rank - left_rank)/2) / N` with real-valued halving
of the rank gap.  Kept as a separate definition so that the source
`ecdf` can be compared against it. -/
noncomputable def ecdfSpecMidrank (data : List ℝ) (quantile : ℝ) : ℝ :=
  ((bisectLeft data quantile : ℝ) +
    ((bisectRight data quantile : ℝ) - (bisectLeft data quantile : ℝ)) / 2) /
    (data.length : ℝ)

/-- `empDist(datapoint, quantile)`: the tie-aware indicator
(1 below, 0 above, 0.5 on a tie). -/
noncomputable def empDist (datapoint : ℝ) (quantile : ℝ) : ℝ :=
  if datapoint < quantile then 1
  else if datapoint > quantile then 0
  else 0.5

/-- `cdfCost(value, dataSize)`: zero outside the open interval (0,1),
otherwise `dataSize * (value*ln(value) - conj*ln(conj))` with
`conj = 1 - value` — note the source subtracts the conjugate term. -/
noncomputable def cdfCost (value : ℝ) (dataSize : ℕ) : ℝ :=
  if value ≤ 0 ∨ value ≥ 1 then 0
  else
    let conj := 1 - value
    (dataSize : ℝ) * ((value * Real.log value) - (conj * Real.log conj))

/-- The cost functional exactly as the specification words it:
`n * (v*ln(v) + (1-v)*ln(1-v))` inside (0,1) and `0` outside.  Kept as
a separate definition so that the source `cdfCost` can be compared
against it. -/
noncomputable def cdfCostSpec (value : ℝ) (dataSize : ℕ) : ℝ :=
  if value ≤ 0 ∨ value ≥ 1 then 0
  else (dataSize : ℝ) * ((value * Real.log value) + ((1 - value) * Real.log (1 - value)))

/-- `windowUpdate(datapoint, length, quantiles, cdf)`: removes one point
from the right-segment CDF estimates:
`cdf[i] := (cdf[i]*length - empDist(datapoint, quantiles[i])) / (length - 1)`.
`length - 1` is computed on Go `int`s and then converted, which the cast
`(length : ℝ) - 1` reproduces for every `length`. -/
noncomputable def windowUpdate (datapoint : ℝ) (length : ℕ) (quantiles cdf : List ℝ) :
    List ℝ :=
  List.zipWith (fun q c => (c * (length : ℝ) - empDist datapoint q) / ((length : ℝ) - 1))
    quantiles cdf

/-- One iteration of the segment-cost loop of `Process` at position `i`:
the updated right-segment CDF vector together with the segment cost
`2 * (leftCost + rightCost - fullCost)`. -/
noncomputable def scanStep (N : ℕ) (dataset q fullCDF : List ℝ) (fullCost : ℝ) (i : ℕ)
    (rightCDF : List ℝ) : List ℝ × ℝ :=
  let length := N - i
  let rcdf := windowUpdate (dataset.getD i 0) length q rightCDF
  let length2 := length - 1
  let leftCDF := List.zipWith
    (fun fc rc => (fc * (N : ℝ) - rc * (length2 : ℝ)) / ((N : ℝ) - (length2 : ℝ)))
    fullCDF rcdf
  let leftCost := (leftCDF.map (fun c => cdfCost c (N - length2))).sum
  let rightCost := (rcdf.map (fun c => cdfCost c length2)).sum
  (rcdf, 2 * (leftCost + rightCost - fullCost))

/-- The segment-cost loop of `Process`: `remaining` iterations starting
at position `i`, threading the right-segment CDF vector and the running
maximum, which is replaced exactly when the new cost is strictly
greater (`cost > maxCost.value`). -/
noncomputable def scanGo (N : ℕ) (dataset q fullCDF : List ℝ) (fullCost : ℝ)
    (absIdx : ℕ → ℕ) : ℕ → ℕ → List ℝ → Cost → Cost
  | 0, _, _, mc => mc
  | r + 1, i, rcdf, mc =>
    let s := scanStep N dataset q fullCDF fullCost i rcdf
    scanGo N dataset q fullCDF fullCost absIdx r (i + 1) s.1
      (if s.2 > mc.value then ⟨absIdx i, s.2⟩ else mc)

/-- The list of segment costs produced by the same loop, in scan
order. -/
noncomputable def scanCosts (N : ℕ) (dataset q fullCDF : List ℝ) (fullCost : ℝ) :
    ℕ → ℕ → List ℝ → List ℝ
  | 0, _, _ => []
  | r + 1, i, rcdf =>
    let s := scanStep N dataset q fullCDF fullCost i rcdf
    s.2 :: scanCosts N dataset q fullCDF fullCost r (i + 1) s.1

/-- The divisors used by the `windowUpdate` calls across one scan of a
full window of `N` points: iteration `i` passes `length = N - i`, and
`windowUpdate` divides by `length - 1`. -/
noncomputable def scanDivisors (N : ℕ) : List ℝ :=
  (List.range N).map (fun i => ((N - i : ℕ) : ℝ) - 1)

/-- `Process(value, quantileCount)`: push the value, and if the window
is full compute the quantile probes, the full-window CDF estimates and
cost, then scan all split positions for the maximum segment cost.  The
winning absolute index is `count - 1 - cap + i` on `uint64`, embedded
with the explicit `% 2 ^ 64` wrap. -/
noncomputable def NuncProcessor.Process (proc : NuncProcessor) (value : ℝ)
    (quantileCount : ℤ) : NuncProcessor × Option Cost :=
  let pg := proc.window.PushGetFull value
  let count := pg.2.1
  match pg.2.2 with
  | none => (⟨pg.1⟩, none)
  | some dataset =>
    let sorted := dataset.insertionSort (fun a b => a ≤ b)
    let q := quantiles sorted quantileCount
    let fullCDF := q.map (fun qi => ecdf sorted qi)
    let fullCost := (fullCDF.map (fun v => cdfCost v dataset.length)).sum
    let N := sorted.length
    let absIdx : ℕ → ℕ := fun i => (count - 1 + (2 ^ 64 - proc.window.Cap) + i) % 2 ^ 64
    (⟨pg.1⟩, some (scanGo N dataset q fullCDF fullCost absIdx N 0 fullCDF ⟨0, 0⟩))

/-! ### nunc container (detector shell) -/

/-- `NUNC`: the detector: processor, optional threshold, the stored
configuration and the append-only list of reported changepoints. -/
structure NUNC where
  processor : NuncProcessor
  threshold : Option Threshold
  windowSize : ℤ
  quantiles : ℤ
  changepoints : List ℕ

/-- The configuration options the package itself offers (`NuncOpt`
values constructed by `OptThreshold` and `OptThresholdEstimate`; the
fields they may touch are unexported, so these are the only option
behaviours expressible from outside the package). -/
inductive NuncOpt where
  | threshold (value : ℝ)
  | thresholdEstimate (probability : ℝ)

/-- Application of one option: `OptThreshold` installs a static
threshold; `OptThresholdEstimate` builds the estimate with
`datapoints = 1000` and the stored window size and quantile count. -/
noncomputable def NuncOpt.apply : NuncOpt → NUNC → Except String NUNC
  | .threshold v, n => .ok { n with threshold := some (NewThresholdStatic v) }
  | .thresholdEstimate p, n =>
    match NewThresholdEstimate p 1000 n.windowSize n.quantiles with
    | .error e => .error e
    | .ok t => .ok { n with threshold := some t }

/-- The option loop of `NewNUNC` (errors abort with a wrapped
message). -/
noncomputable def applyOpts : List NuncOpt → NUNC → Except String NUNC
  | [], n => .ok n
  | o :: os, n =>
    match o.apply n with
    | .error e => .error ("failed to apply opt: " ++ e)
    | .ok n2 => applyOpts os n2

/-- `NewNUNC(windowSize, quantiles, opts...)`: builds the processor
(which validates only the window size), stores the configuration with
an empty changepoint list and a nil threshold, then applies the
options in order. -/
noncomputable def NewNUNC (windowSize quantiles : ℤ) (opts : List NuncOpt) :
    Except String NUNC :=
  match New windowSize with
  | .error e => .error e
  | .ok processor =>
    applyOpts opts
      { processor := processor, threshold := none, windowSize := windowSize,
        quantiles := quantiles, changepoints := [] }

/-- `Push(datapoint)`: process the point; when a cost is produced, a
threshold is installed, the cost is classified as a changepoint and its
index is not yet recorded, append the index and return it; in every
other case return `0`. -/
noncomputable def NUNC.Push (n : NUNC) (datapoint : ℝ) : NUNC × ℕ :=
  let pr := n.processor.Process datapoint n.quantiles
  let n2 := { n with processor := pr.1 }
  match pr.2 with
  | none => (n2, 0)
  | some cost =>
    match n2.threshold with
    | none => (n2, 0)
    | some t =>
      if t.Changepoint cost.Value then
        if cost.Index ∈ n2.changepoints then (n2, 0)
        else ({ n2 with changepoints := n2.changepoints ++ [cost.Index] }, cost.Index)
      else (n2, 0)

/-- Sequential observations fed to `Push`, keeping the final state. -/
noncomputable def NUNC.pushAll (n : NUNC) (xs : List ℝ) : NUNC :=
  xs.foldl (fun m x => (m.Push x).1) n

/-! ### Theorems -/

/-- Claim C1: the claim states that `cdfCost v n` equals
`n * (v*ln(v) + (1-v)*ln(1-v))` inside (0,1).  The source subtracts the
conjugate term instead of adding it, so at `v = 1/4`, `n = 1` the two
values differ (`cdfCostSpec` is the formula of the claim). -/
theorem cdfCost_sign_flipped : cdfCost (1 / 4) 1 ≠ cdfCostSpec (1 / 4) 1 := by
  rw [cdfCost, cdfCostSpec, if_neg (by norm_num), if_neg (by norm_num)]
  have h34 : Real.log (3 / 4) ≠ 0 := by
    rw [Ne, Real.log_eq_zero]
    norm_num
  intro h
  apply h34
  norm_num at h
  linarith

/-- Claim C2: the claim states that `ecdf` halves the rank gap as a
real number.  The source divides the gap on Go `int`s, so on the sorted
window `[1.0]` at quantile value `1.0` (left rank 0, right rank 1) the
code yields `0` while the mid-rank formula of the claim
(`ecdfSpecMidrank`) yields `1/2`: the duplicate-tie mid-rank treatment
is lost whenever the rank gap is odd. -/
theorem ecdf_integer_halving :
    ecdf [(1 : ℝ)] 1 = 0 ∧ ecdfSpecMidrank [(1 : ℝ)] 1 = 1 / 2 := by
  have bl : bisectLeft [(1 : ℝ)] 1 = 0 := by
    rw [bisectLeft, searchIdx, if_pos (by norm_num)]
  have br : bisectRight [(1 : ℝ)] 1 = 1 := by
    rw [bisectRight, searchIdx, if_neg (by norm_num), searchIdx]
  constructor
  · rw [ecdf, bl, br]; norm_num
  · rw [ecdfSpecMidrank, bl, br]; norm_num

/-- Claim C3: the claim states `cdfCost v n = cdfCost (1-v) n` on
(0,1).  Because the source subtracts the conjugate term, the functional
is antisymmetric rather than symmetric about `v = 1/2`, and the claimed
equality fails at `v = 1/4`, `n = 1` (it would force
`4*ln 2 = 3*ln 3`, i.e. `16 = 27`). -/
theorem cdfCost_not_symmetric : cdfCost (1 / 4) 1 ≠ cdfCost (3 / 4) 1 := by
  rw [cdfCost, cdfCost, if_neg (by norm_num), if_neg (by norm_num)]
  intro h
  norm_num at h
  have h14 : Real.log (1 / 4 : ℝ) = -(2 * Real.log 2) := by
    rw [show (1 / 4 : ℝ) = ((2 : ℝ) ^ 2)⁻¹ by norm_num, Real.log_inv, Real.log_pow]
    push_cast
    ring
  have h34 : Real.log (3 / 4 : ℝ) = Real.log 3 - 2 * Real.log 2 := by
    rw [show (3 / 4 : ℝ) = 3 / 2 ^ 2 by norm_num,
      Real.log_div (by norm_num) (by norm_num), Real.log_pow]
    push_cast
    ring
  rw [h14, h34] at h
  have h1627 : Real.log 16 < Real.log 27 := by
    apply Real.log_lt_log <;> norm_num
  rw [show (16 : ℝ) = 2 ^ 4 by norm_num, show (27 : ℝ) = 3 ^ 3 by norm_num,
    Real.log_pow, Real.log_pow] at h1627
  push_cast at h1627
  linarith

/-- Claim C4: the claim states the incremental right-segment update
never divides by zero, the terminal step included.  In the source the
scan at position `i` calls `windowUpdate` with `length = N - i`, so the
final position `i = N - 1` passes `length = 1` and `windowUpdate`
divides by `length - 1 = 0` (IEEE Inf/NaN in Go; the real-number
idealisation maps the whole entry to `0`): the divisor list of every
full-window scan contains `0`, and the unguarded terminal
`windowUpdate` call collapses under the division-by-zero convention. -/
theorem scan_terminal_divisor_zero (N : ℕ) (hN : 1 ≤ N) :
    (0 : ℝ) ∈ scanDivisors N ∧ ∀ x q c : ℝ, windowUpdate x 1 [q] [c] = [0] := by
  constructor
  · rw [scanDivisors, List.mem_map]
    refine ⟨N - 1, List.mem_range.mpr (by omega), ?_⟩
    rw [Nat.sub_sub_self hN]
    norm_num
  · intro x q c
    rw [windowUpdate]
    simp [List.zipWith]

/-- Concrete instance of the terminal division by zero, at the smallest
full window (`N = 1`). -/
theorem scan_terminal_divisor_zero_witness :
    1 ≤ 1 ∧ ((0 : ℝ) ∈ scanDivisors 1 ∧ ∀ x q c : ℝ, windowUpdate x 1 [q] [c] = [0]) :=
  ⟨le_refl 1, scan_terminal_divisor_zero 1 (le_refl 1)⟩

/-- The scan produces one segment cost per remaining position. -/
lemma scanCosts_length (N : ℕ) (dataset q fullCDF : List ℝ) (fullCost : ℝ) :
    ∀ (r i : ℕ) (rcdf : List ℝ),
      (scanCosts N dataset q fullCDF fullCost r i rcdf).length = r := by
  intro r
  induction r with
  | zero => intro i rcdf; rw [scanCosts]; rfl
  | succ r ih => intro i rcdf; rw [scanCosts]; simp [ih]

/-- Behaviour of the running-maximum loop: either no segment cost ever
exceeds the accumulator value and the accumulator is returned
unchanged, or the result is the first position whose cost strictly
exceeds the accumulator and is never exceeded later. -/
lemma scanGo_spec (N : ℕ) (dataset q fullCDF : List ℝ) (fullCost : ℝ) (absIdx : ℕ → ℕ) :
    ∀ (r i : ℕ) (rcdf : List ℝ) (mc : Cost),
      (scanGo N dataset q fullCDF fullCost absIdx r i rcdf mc = mc ∧
        ∀ c ∈ scanCosts N dataset q fullCDF fullCost r i rcdf, c ≤ mc.value) ∨
      (∃ j, j < r ∧
        scanGo N dataset q fullCDF fullCost absIdx r i rcdf mc =
          ⟨absIdx (i + j), (scanCosts N dataset q fullCDF fullCost r i rcdf).getD j 0⟩ ∧
        mc.value < (scanCosts N dataset q fullCDF fullCost r i rcdf).getD j 0 ∧
        (∀ c ∈ scanCosts N dataset q fullCDF fullCost r i rcdf,
          c ≤ (scanCosts N dataset q fullCDF fullCost r i rcdf).getD j 0) ∧
        ∀ k, k < j → (scanCosts N dataset q fullCDF fullCost r i rcdf).getD k 0 <
          (scanCosts N dataset q fullCDF fullCost r i rcdf).getD j 0) := by
  intro r
  induction r with
  | zero =>
    intro i rcdf mc
    left
    constructor
    · rw [scanGo]
    · rw [scanCosts]; intro c hc; simp at hc
  | succ r ih =>
    intro i rcdf mc
    rw [scanGo, scanCosts]
    set s := scanStep N dataset q fullCDF fullCost i rcdf with hs
    set cs := scanCosts N dataset q fullCDF fullCost r (i + 1) s.1 with hcs
    by_cases hc : s.2 > mc.value
    · rw [if_pos hc]
      rcases ih (i + 1) s.1 ⟨absIdx i, s.2⟩ with ⟨hres, hall⟩ | ⟨j, hj, hres, hgt, hall, hfirst⟩
      · right
        refine ⟨0, Nat.succ_pos r, ?_, ?_, ?_, ?_⟩
        · rw [hres]; simp
        · simpa using hc
        · intro c hcmem
          rcases List.mem_cons.mp hcmem with h | h
          · simp [h]
          · simpa using hall c h
        · intro k hk; omega
      · right
        refine ⟨j + 1, by omega, ?_, ?_, ?_, ?_⟩
        · rw [hres]
          have : i + 1 + j = i + (j + 1) := by omega
          rw [this]
          simp [List.getD_cons_succ]
        · have : (⟨absIdx i, s.2⟩ : Cost).value = s.2 := rfl
          rw [this] at hgt
          simp only [List.getD_cons_succ]
          exact lt_trans hc hgt
        · intro c hcmem
          have hsle : s.2 ≤ cs.getD j 0 := by
            have : (⟨absIdx i, s.2⟩ : Cost).value = s.2 := rfl
            rw [this] at hgt
            exact le_of_lt hgt
          rcases List.mem_cons.mp hcmem with h | h
          · simpa [h, List.getD_cons_succ] using hsle
          · simpa [List.getD_cons_succ] using hall c h
        · intro k hk
          match k with
          | 0 =>
            have : (⟨absIdx i, s.2⟩ : Cost).value = s.2 := rfl
            rw [this] at hgt
            simpa [List.getD_cons_succ] using hgt
          | k + 1 =>
            simp only [List.getD_cons_succ]
            exact hfirst k (by omega)
    · rw [if_neg hc]
      push_neg at hc
      rcases ih (i + 1) s.1 mc with ⟨hres, hall⟩ | ⟨j, hj, hres, hgt, hall, hfirst⟩
      · left
        refine ⟨hres, ?_⟩
        intro c hcmem
        rcases List.mem_cons.mp hcmem with h | h
        · simpa [h] using hc
        · exact hall c h
      · right
        refine ⟨j + 1, by omega, ?_, ?_, ?_, ?_⟩
        · rw [hres]
          have : i + 1 + j = i + (j + 1) := by omega
          rw [this]
          simp [List.getD_cons_succ]
        · simpa [List.getD_cons_succ] using hgt
        · intro c hcmem
          rcases List.mem_cons.mp hcmem with h | h
          · have : c ≤ mc.value := h ▸ hc
            simp only [List.getD_cons_succ]
            exact le_trans this (le_of_lt hgt)
          · simpa [List.getD_cons_succ] using hall c h
        · intro k hk
          match k with
          | 0 =>
            simp only [List.getD_cons_zero, List.getD_cons_succ]
            exact lt_of_le_of_lt hc hgt
          | k + 1 =>
            simp only [List.getD_cons_succ]
            exact hfirst k (by omega)

/-- Claim C5: the scan of `Process` starts its running maximum from the
zero `Cost` and replaces it only on a strict `>` comparison, so: when no
segment cost strictly exceeds 0 the returned `Cost` keeps value 0 and
the zero index, and when some cost is positive the result is the
maximum cost at the first (lowest-index) position attaining it. -/
theorem Process_max_tracking (N : ℕ) (dataset q fullCDF : List ℝ) (fullCost : ℝ)
    (absIdx : ℕ → ℕ) :
    ((∀ c ∈ scanCosts N dataset q fullCDF fullCost N 0 fullCDF, c ≤ 0) →
      scanGo N dataset q fullCDF fullCost absIdx N 0 fullCDF ⟨0, 0⟩ = ⟨0, 0⟩) ∧
    (∀ j, j < N → 0 < (scanCosts N dataset q fullCDF fullCost N 0 fullCDF).getD j 0 →
      ∃ i, i < N ∧
        scanGo N dataset q fullCDF fullCost absIdx N 0 fullCDF ⟨0, 0⟩ =
          ⟨absIdx i, (scanCosts N dataset q fullCDF fullCost N 0 fullCDF).getD i 0⟩ ∧
        0 < (scanCosts N dataset q fullCDF fullCost N 0 fullCDF).getD i 0 ∧
        (∀ c ∈ scanCosts N dataset q fullCDF fullCost N 0 fullCDF,
          c ≤ (scanCosts N dataset q fullCDF fullCost N 0 fullCDF).getD i 0) ∧
        ∀ k, k < i → (scanCosts N dataset q fullCDF fullCost N 0 fullCDF).getD k 0 <
          (scanCosts N dataset q fullCDF fullCost N 0 fullCDF).getD i 0) := by
  have hlen := scanCosts_length N dataset q fullCDF fullCost N 0 fullCDF
  have hmem : ∀ j, j < N →
      (scanCosts N dataset q fullCDF fullCost N 0 fullCDF).getD j 0 ∈
        scanCosts N dataset q fullCDF fullCost N 0 fullCDF := by
    intro j hj
    have hj2 : j < (scanCosts N dataset q fullCDF fullCost N 0 fullCDF).length := by
      rw [hlen]; exact hj
    rw [List.getD_eq_getElem _ _ hj2]
    exact List.getElem_mem hj2
  constructor
  · intro hall
    rcases scanGo_spec N dataset q fullCDF fullCost absIdx N 0 fullCDF ⟨0, 0⟩ with
      ⟨hres, _⟩ | ⟨j, hj, _, hgt, _, _⟩
    · exact hres
    · exact absurd (hall _ (hmem j hj)) (by simpa using hgt)
  · intro j hj hpos
    rcases scanGo_spec N dataset q fullCDF fullCost absIdx N 0 fullCDF ⟨0, 0⟩ with
      ⟨_, hall⟩ | ⟨i, hi, hres, hgt, hall, hfirst⟩
    · exact absurd (hall _ (hmem j hj)) (by simpa using hpos)
    · refine ⟨i, hi, ?_, by simpa using hgt, hall, hfirst⟩
      simpa using hres

/-- Concrete no-changepoint instance of the maximisation behaviour: on
the degenerate one-point window the only segment cost is 0, so the scan
returns the zero `Cost`. -/
theorem Process_max_tracking_witness :
    (∀ c ∈ scanCosts 1 [0] [0] [0] 0 1 0 [0], c ≤ 0) ∧
    scanGo 1 [0] [0] [0] 0 id 1 0 [0] ⟨0, 0⟩ = ⟨0, 0⟩ := by
  have hstep : scanStep 1 [0] [0] [0] 0 0 [0] = ([0], 0) := by
    simp only [scanStep, windowUpdate, List.zipWith, List.getD]
    norm_num [empDist, cdfCost]
  have hcs : scanCosts 1 [0] [0] [0] 0 1 0 [0] = [0] := by
    rw [scanCosts]
    simp only [hstep, scanCosts]
  have hhyp : ∀ c ∈ scanCosts 1 [0] [0] [0] 0 1 0 [0], c ≤ 0 := by
    rw [hcs]
    simp
  exact ⟨hhyp, (Process_max_tracking 1 [0] [0] [0] 0 id).1 hhyp⟩

/-- Claim C6: the claim states that a quantile count `<= 0` is rejected
at construction.  `NewNUNC` validates only the window size (via
`NewWindow`) and no code path checks the quantile count, so
construction with quantile count `0` or `-1` succeeds and the instance
is created. -/
theorem NewNUNC_accepts_nonpositive_quantiles :
    NewNUNC 5 0 [] = .ok ⟨⟨⟨5, List.replicate 5 default, 0⟩⟩, none, 5, 0, []⟩ ∧
    NewNUNC 5 (-1) [] = .ok ⟨⟨⟨5, List.replicate 5 default, 0⟩⟩, none, 5, -1, []⟩ :=
  ⟨rfl, rfl⟩

/-- Claim C8: for every valid input (`p ∈ (0,1]`, `W > 0`), the
estimated threshold stored at construction is exactly the closed form
of the specification with `M = W * (D - W + 1)`: `1 + 2*sqrt(2*ln(M/p))`
when `D + 1 == W`, else the max of that and `1 - (8/K)*ln(p/M)`.  The
embedding is a pure function of the four scalars, so the value is
deterministic and fixed once at construction. -/
theorem NewThresholdEstimate_closed_form (p : ℝ) (D W K : ℤ)
    (hp0 : 0 < p) (hp1 : p ≤ 1) (hW : 0 < W) :
    NewThresholdEstimate p D W K = .ok (.estimate (thresholdEstimateSpec p D W K)) := by
  rw [NewThresholdEstimate, thresholdEstimateSpec,
    if_neg (by push_neg; constructor <;> linarith), if_neg (by omega)]
  by_cases h : D + 1 = W
  · rw [if_pos h, if_pos h]
  · rw [if_neg h, if_neg h]
    congr 2
    congr 1
    ring

/-- The closed form at the parameters the specification quotes
(probability 0.02, run length 1000, window 300, quantile count 3). -/
theorem NewThresholdEstimate_closed_form_witness :
    0 < (0.02 : ℝ) ∧ (0.02 : ℝ) ≤ 1 ∧ 0 < (300 : ℤ) ∧
    NewThresholdEstimate 0.02 1000 300 3 =
      .ok (.estimate (thresholdEstimateSpec 0.02 1000 300 3)) :=
  ⟨by norm_num, by norm_num, by norm_num,
    NewThresholdEstimate_closed_form 0.02 1000 300 3 (by norm_num) (by norm_num)
      (by norm_num)⟩

/-- Setting at the index right after a left part lands in the right
part. -/
lemma set_append_length {α : Type} (l1 l2 : List α) (a : α) :
    (l1 ++ l2).set l1.length a = l1 ++ l2.set 0 a := by
  induction l1 with
  | nil => simp
  | cons x xs ih => simp [List.set, ih]

/-- State of a fresh window after at most `capacity` pushes: the pushed
values sit in front, the remaining slots keep the zero value, and the
counter equals the number of pushes. -/
lemma pushAll_state {α : Type} [Inhabited α] (C : ℕ) :
    ∀ (xs ys : List α), ys.length + xs.length ≤ C →
      Window.pushAll ⟨C, ys ++ List.replicate (C - ys.length) default, ys.length⟩ xs =
        ⟨C, (ys ++ xs) ++ List.replicate (C - (ys.length + xs.length)) default,
          ys.length + xs.length⟩ := by
  intro xs
  induction xs with
  | nil => intro ys h; simp [Window.pushAll]
  | cons x xs ih =>
    intro ys h
    have hlt : ys.length < C := by
      simp at h; omega
    have hstep :
        Window.push ⟨C, ys ++ List.replicate (C - ys.length) default, ys.length⟩ x =
          ⟨C, (ys ++ [x]) ++ List.replicate (C - (ys.length + 1)) default,
            ys.length + 1⟩ := by
      rw [Window.push]
      simp only [Window.marker]
      congr 1
      · rw [Nat.mod_eq_of_lt hlt]
        have hrep : C - ys.length = (C - (ys.length + 1)) + 1 := by omega
        rw [hrep, List.replicate_succ, set_append_length]
        simp
    have hone : Window.pushAll
        ⟨C, ys ++ List.replicate (C - ys.length) default, ys.length⟩ (x :: xs) =
        Window.pushAll ⟨C, (ys ++ [x]) ++ List.replicate (C - (ys.length + 1)) default,
          ys.length + 1⟩ xs := by
      rw [Window.pushAll, List.foldl_cons, hstep, Window.pushAll]
    rw [hone]
    have h2 : (ys ++ [x]).length + xs.length ≤ C := by simp at h ⊢; omega
    have h3 := ih (ys ++ [x]) h2
    simp only [List.length_append, List.length_cons, List.length_nil, Nat.zero_add] at h3
    rw [h3]
    have harith : ys.length + 1 + xs.length = ys.length + (xs.length + 1) := by omega
    rw [harith]
    congr 1
    simp [List.append_assoc]

/-- Claim C9: for every capacity `C > 0`, after `C - 1` pushes the
full-only snapshot is `nil`; the `C`-th push (through `PushGetFull`)
returns count `C` and exactly the `C` pushed values oldest-first, as
does `GetFull` on a window holding exactly `C` pushes. -/
theorem Window_full_snapshot {α : Type} [Inhabited α] (C : ℤ) (hC : 0 < C)
    (w0 : Window α) (hw : NewWindow α C = .ok w0) (xs : List α) :
    (xs.length + 1 = C.toNat →
      (w0.pushAll xs).get true = none ∧
      ∀ x, ((w0.pushAll xs).PushGetFull x).2 = (C.toNat, some (xs ++ [x]))) ∧
    (xs.length = C.toNat → (w0.pushAll xs).get true = some xs) := by
  set n := C.toNat with hn
  have hn0 : 0 < n := by omega
  rw [NewWindow, if_neg (by omega)] at hw
  have hw0 : w0 = ⟨n, List.replicate n default, 0⟩ := by
    cases hw; rfl
  subst hw0
  constructor
  · intro hlen
    have hfold := pushAll_state n xs ([] : List α) (by simp; omega)
    simp only [List.length_nil, Nat.zero_add, List.nil_append, Nat.sub_zero] at hfold
    rw [hfold]
    have hrep : n - xs.length = 1 := by omega
    rw [hrep]
    have hmarker : xs.length % n = xs.length := Nat.mod_eq_of_lt (by omega)
    constructor
    · rw [Window.get]
      have hfull : Window.Full ⟨n, xs ++ List.replicate 1 default, xs.length⟩ = false := by
        rw [Window.Full, Window.Len]
        simp only [Window.marker]
        rw [if_neg (by simp; omega)]
        simp only [hmarker]
        simp [Nat.ne_of_lt (show xs.length < n by omega)]
      rw [hfull]
      simp
    · intro x
      rw [Window.PushGetFull]
      have hpush : Window.push ⟨n, xs ++ List.replicate 1 default, xs.length⟩ x =
          ⟨n, xs ++ [x], xs.length + 1⟩ := by
        rw [Window.push]
        simp only [Window.marker, hmarker]
        congr 1
        rw [set_append_length]
        simp [List.replicate_succ]
      rw [hpush]
      have hlen2 : (xs ++ [x]).length = n := by simp; omega
      have hget : Window.get ⟨n, xs ++ [x], xs.length + 1⟩ true = some (xs ++ [x]) := by
        rw [Window.get]
        have hfull : Window.Full ⟨n, xs ++ [x], xs.length + 1⟩ = true := by
          rw [Window.Full, Window.Len]
          rw [if_pos (by simp; omega)]
          simp
        rw [hfull]
        rw [if_neg (by simp)]
        simp only [Window.Len, Window.marker]
        rw [if_pos (by simp; omega)]
        have hmod : (xs.length + 1) % n = 0 := by
          rw [show xs.length + 1 = n by omega]
          exact Nat.mod_self n
        rw [hmod]
        simp only [List.drop_zero, List.take_zero, List.append_nil, Nat.sub_zero]
        rw [← hlen2, List.take_length]
      rw [hget]
      simp
      omega
  · intro hlen
    have hfold := pushAll_state n xs ([] : List α) (by simp; omega)
    simp only [List.length_nil, Nat.zero_add, List.nil_append, Nat.sub_zero] at hfold
    rw [hfold]
    have hrep : n - xs.length = 0 := by omega
    rw [hrep]
    simp only [List.replicate_zero, List.append_nil]
    rw [Window.get]
    have hfull : Window.Full ⟨n, xs, xs.length⟩ = true := by
      rw [Window.Full, Window.Len]
      rw [if_pos (by simp; omega)]
      simp
    rw [hfull]
    have hne : xs ≠ [] := by
      intro h
      rw [h] at hlen
      simp at hlen
      omega
    rw [if_neg (by simp [hne])]
    simp only [Window.Len, Window.marker]
    rw [if_pos (by simp; omega)]
    have hmod : xs.length % n = 0 := by
      rw [hlen]; exact Nat.mod_self n
    rw [hmod]
    simp only [List.drop_zero, List.take_zero, List.append_nil, Nat.sub_zero]
    rw [show n = xs.length from hlen.symm, List.take_length]

/-- Concrete capacity-2 instance: one push gives no full snapshot, the
second push returns both values oldest-first. -/
theorem Window_full_snapshot_witness :
    NewWindow ℝ 2 = .ok ⟨2, List.replicate 2 default, 0⟩ ∧
    ([(1 : ℝ)].length + 1 = (2 : ℤ).toNat) ∧
    (Window.pushAll ⟨2, List.replicate 2 default, 0⟩ [(1 : ℝ)]).get true = none ∧
    ((Window.pushAll ⟨2, List.replicate 2 default, 0⟩ [(1 : ℝ)]).PushGetFull 2).2 =
      ((2 : ℤ).toNat, some ([1] ++ [2])) := by
  have h := (Window_full_snapshot 2 (by norm_num) ⟨2, List.replicate 2 default, 0⟩ rfl
    [(1 : ℝ)]).1 rfl
  exact ⟨rfl, rfl, h.1, h.2 2⟩

/-- One `Push` either leaves the changepoint list unchanged and returns
0, or appends a not-yet-recorded index and returns exactly that
index. -/
lemma Push_changepoints_cases (n : NUNC) (x : ℝ) :
    ((n.Push x).1.changepoints = n.changepoints ∧ (n.Push x).2 = 0) ∨
    ((n.Push x).2 ∉ n.changepoints ∧
      (n.Push x).1.changepoints = n.changepoints ++ [(n.Push x).2]) := by
  rcases hpc : (n.processor.Process x n.quantiles).2 with _ | cost
  · left
    simp [NUNC.Push, hpc]
  · rcases ht : n.threshold with _ | t
    · left
      simp [NUNC.Push, hpc, ht]
    · by_cases hcl : t.Changepoint cost.Value
      · by_cases hmem : cost.Index ∈ n.changepoints
        · left
          simp [NUNC.Push, hpc, ht, hcl, hmem]
        · right
          simp [NUNC.Push, hpc, ht, hcl, hmem]
      · left
        simp [NUNC.Push, hpc, ht, hcl]

/-- `Push` preserves the no-duplicates invariant of the changepoint
list. -/
lemma Push_nodup (n : NUNC) (x : ℝ) (h : n.changepoints.Nodup) :
    (n.Push x).1.changepoints.Nodup := by
  rcases Push_changepoints_cases n x with ⟨heq, _⟩ | ⟨hmem, heq⟩
  · rw [heq]; exact h
  · rw [heq]
    rw [List.nodup_append]
    exact ⟨h, List.nodup_singleton _, by simpa using hmem⟩

/-- The invariant holds along any observation sequence. -/
lemma pushAll_nodup (xs : List ℝ) :
    ∀ (n : NUNC), n.changepoints.Nodup → (n.pushAll xs).changepoints.Nodup := by
  induction xs with
  | nil => intro n h; exact h
  | cons x xs ih =>
    intro n h
    rw [NUNC.pushAll, List.foldl_cons]
    exact ih _ (Push_nodup n x h)

/-- Option application never touches the changepoint list. -/
lemma applyOpts_changepoints :
    ∀ (opts : List NuncOpt) (n m : NUNC), applyOpts opts n = .ok m →
      m.changepoints = n.changepoints := by
  intro opts
  induction opts with
  | nil =>
    intro n m h
    rw [applyOpts] at h
    cases h
    rfl
  | cons o os ih =>
    intro n m h
    rw [applyOpts] at h
    cases o with
    | threshold v =>
      rw [NuncOpt.apply] at h
      have h2 : applyOpts os { n with threshold := some (NewThresholdStatic v) } = .ok m := h
      have h3 := ih _ _ h2
      exact h3
    | thresholdEstimate p =>
      rw [NuncOpt.apply] at h
      cases hte : NewThresholdEstimate p 1000 n.windowSize n.quantiles with
      | error e =>
        rw [hte] at h
        have h2 : (Except.error ("failed to apply opt: " ++ e) : Except String NUNC) =
            .ok m := h
        cases h2
      | ok t =>
        rw [hte] at h
        have h2 : applyOpts os { n with threshold := some t } = .ok m := h
        have h3 := ih _ _ h2
        exact h3

/-- A freshly constructed detector has no recorded changepoints. -/
lemma NewNUNC_changepoints (ws q : ℤ) (opts : List NuncOpt) (n : NUNC)
    (h : NewNUNC ws q opts = .ok n) : n.changepoints = [] := by
  rw [NewNUNC] at h
  cases hnew : New ws with
  | error e => rw [hnew] at h; exact absurd h (by simp)
  | ok proc => rw [hnew] at h; exact applyOpts_changepoints _ _ _ h

/-- Claim C7: along every observation sequence fed to `Push`, the
recorded changepoint list stays duplicate-free, and a nonzero return of
`Push` happens exactly in the branch that appends a not-yet-recorded
index: the returned index was not in the list before the call and the
list grows by exactly that index. -/
theorem Push_no_duplicate_reports (ws q : ℤ) (opts : List NuncOpt) (n0 : NUNC)
    (hn : NewNUNC ws q opts = .ok n0) (xs : List ℝ) :
    (n0.pushAll xs).changepoints.Nodup ∧
    ∀ x : ℝ, ((n0.pushAll xs).Push x).2 ≠ 0 →
      ((n0.pushAll xs).Push x).2 ∉ (n0.pushAll xs).changepoints ∧
      ((n0.pushAll xs).Push x).1.changepoints =
        (n0.pushAll xs).changepoints ++ [((n0.pushAll xs).Push x).2] := by
  have h0 : n0.changepoints.Nodup := by
    rw [NewNUNC_changepoints ws q opts n0 hn]
    exact List.nodup_nil
  refine ⟨pushAll_nodup xs n0 h0, ?_⟩
  intro x hr
  rcases Push_changepoints_cases (n0.pushAll xs) x with ⟨_, hzero⟩ | ⟨hmem, heq⟩
  · exact absurd hzero hr
  · exact ⟨hmem, heq⟩

/-- Concrete detector run: a capacity-1 detector with a static
threshold, fed two observations, keeps a duplicate-free changepoint
list. -/
theorem Push_no_duplicate_reports_witness :
    NewNUNC 1 1 [NuncOpt.threshold (-1)] =
      .ok ⟨⟨⟨1, List.replicate 1 default, 0⟩⟩, some (Threshold.static (-1)), 1, 1, []⟩ ∧
    (NUNC.pushAll ⟨⟨⟨1, List.replicate 1 default, 0⟩⟩, some (Threshold.static (-1)), 1, 1, []⟩
      [5, 3]).changepoints.Nodup := by
  have hok : NewNUNC 1 1 [NuncOpt.threshold (-1)] =
      .ok ⟨⟨⟨1, List.replicate 1 default, 0⟩⟩, some (Threshold.static (-1)), 1, 1, []⟩ := rfl
  exact ⟨hok, (Push_no_duplicate_reports 1 1 [NuncOpt.threshold (-1)] _ hok [5, 3]).1⟩

lemma c10_hq : quantiles [(5 : ℝ)] 1 = [5] := by
  simp only [quantiles]
  show (List.map _ (List.range (1 : ℤ).toNat)) = [5]
  rw [show List.range (1 : ℤ).toNat = [0] from rfl, List.map_cons, List.map_nil]
  norm_num
  rw [quantile]
  norm_num

lemma c10_hecdf : ecdf [(5 : ℝ)] 5 = 0 := by
  have bl : bisectLeft [(5 : ℝ)] 5 = 0 := by
    rw [bisectLeft, searchIdx, if_pos (by norm_num)]
  have br : bisectRight [(5 : ℝ)] 5 = 1 := by
    rw [bisectRight, searchIdx, if_neg (by norm_num), searchIdx]
  rw [ecdf, bl, br]
  norm_num

lemma c10_hstep : scanStep 1 [(5 : ℝ)] [5] [0] 0 0 [0] = ([0], 0) := by
  simp only [scanStep, windowUpdate, List.zipWith, List.getD]
  norm_num [empDist, cdfCost]

lemma c10_hscan (absIdx : ℕ → ℕ) :
    scanGo 1 [(5 : ℝ)] [5] [0] 0 absIdx 1 0 [0] ⟨0, 0⟩ = ⟨0, 0⟩ := by
  rw [scanGo]
  simp only [c10_hstep]
  rw [if_neg (by norm_num)]
  rw [scanGo]

lemma c10_hsort : List.insertionSort (fun a b => a ≤ b) [(5 : ℝ)] = [5] := rfl

lemma c10_hcdf0 : cdfCost 0 1 = 0 := by
  rw [cdfCost, if_pos (Or.inl le_rfl)]

lemma c10_hproc :
    NuncProcessor.Process ⟨⟨1, List.replicate 1 default, 0⟩⟩ (5 : ℝ) 1 =
      (⟨⟨1, [5], 1⟩⟩, some ⟨0, 0⟩) := by
  have hpg : Window.PushGetFull (⟨1, List.replicate 1 default, 0⟩ : Window ℝ) 5 =
      (⟨1, [5], 1⟩, 1, some [5]) := rfl
  rw [NuncProcessor.Process, hpg]
  simp only [c10_hsort, c10_hq, List.map_cons, List.map_nil, c10_hecdf,
    List.length_cons, List.length_nil, Nat.zero_add, c10_hcdf0,
    List.sum_cons, List.sum_nil, add_zero, Window.Cap]
  rw [c10_hscan]

lemma c10_push1 :
    NUNC.Push ⟨⟨⟨1, List.replicate 1 default, 0⟩⟩, some (Threshold.static (-1)), 1, 1, []⟩ 5 =
      (⟨⟨⟨1, [5], 1⟩⟩, some (Threshold.static (-1)), 1, 1, [0]⟩, 0) := by
  rw [NUNC.Push]
  simp only [c10_hproc]
  rw [if_pos (show Threshold.Changepoint (Threshold.static (-1)) (Cost.Value ⟨0, 0⟩) by
    rw [Threshold.Changepoint, Threshold.Value, Cost.Value]; norm_num)]
  rw [if_neg (show ¬ Cost.Index ⟨0, 0⟩ ∈ ([] : List ℕ) by simp)]
  simp [Cost.Index]

lemma c10_push2 :
    NUNC.Push ⟨⟨⟨2, List.replicate 2 default, 0⟩⟩, some (Threshold.static (-1)), 2, 1, []⟩ 5 =
      (⟨⟨⟨2, [5, default], 1⟩⟩, some (Threshold.static (-1)), 2, 1, []⟩, 0) := rfl

/-- Claim C10: `Push` signals the absence of a changepoint by the
literal return value `0` (a plain `uint64`, not an option type), so a
genuine changepoint at absolute index 0 is indistinguishable from
"nothing detected".  Concretely: a capacity-1 detector with static
threshold `-1` records index 0 as a brand-new changepoint on its first
observation yet returns `0`, the same value a capacity-2 detector
returns for the same observation while still warming up and recording
nothing. -/
theorem Push_zero_index_ambiguous :
    NewNUNC 1 1 [NuncOpt.threshold (-1)] =
      .ok ⟨⟨⟨1, List.replicate 1 default, 0⟩⟩, some (Threshold.static (-1)), 1, 1, []⟩ ∧
    (NUNC.Push ⟨⟨⟨1, List.replicate 1 default, 0⟩⟩,
      some (Threshold.static (-1)), 1, 1, []⟩ 5).2 = 0 ∧
    (NUNC.Push ⟨⟨⟨1, List.replicate 1 default, 0⟩⟩,
      some (Threshold.static (-1)), 1, 1, []⟩ 5).1.changepoints = [0] ∧
    NewNUNC 2 1 [NuncOpt.threshold (-1)] =
      .ok ⟨⟨⟨2, List.replicate 2 default, 0⟩⟩, some (Threshold.static (-1)), 2, 1, []⟩ ∧
    (NUNC.Push ⟨⟨⟨2, List.replicate 2 default, 0⟩⟩,
      some (Threshold.static (-1)), 2, 1, []⟩ 5).2 = 0 ∧
    (NUNC.Push ⟨⟨⟨2, List.replicate 2 default, 0⟩⟩,
      some (Threshold.static (-1)), 2, 1, []⟩ 5).1.changepoints = [] := by
  refine ⟨rfl, ?_, ?_, rfl, ?_, ?_⟩
  · rw [c10_push1]
  · rw [c10_push1]
  · rw [c10_push2]
  · rw [c10_push2]

end GoNunc
